import Mathlib

/-!
Verification of the in-memory graph core of the DS210 final project
(`src/main.rs`): the `Graph` structure over an adjacency map from string
identifiers to neighbor sets, its mutation API (`add_node`, `add_edge`,
the private `add_directed_edge`), the introspection API (`nodes`, `adj`),
the BFS shortest-path query `degrees_of_separation`, and the CSV import
boundary `add_from_csv`.

The Rust `HashMap<String, HashSet<String>>` is embedded as an association
list from identifiers to neighbor lists: `HashMap` lookup corresponds to
first-match lookup (keys are never duplicated by the mutation API), and
`HashSet` insertion corresponds to duplicate-free list insertion.  The BFS
`while let` loop is embedded fuel-indexed: `bfsLoop ... fuel` returns
`none` when the fuel runs out and `some r` when the loop exits by itself
with result `r`; a fuel bound sufficient for every input is proved, and
`degrees_of_separation` runs the loop at that bound.
-/

abbrev Node := String

abbrev AdjList := List (Node × List Node)

/-- First-match association-list lookup; embeds `HashMap::get` (the mutation
API never creates duplicate keys, so first-match agrees with map lookup). -/
def lookupA : AdjList → Node → Option (List Node)
  | [], _ => none
  | (k, s) :: rest, u => if k = u then some s else lookupA rest u

/-- `HashSet::insert`: add `v` unless already present. -/
def insertNeighbor (s : List Node) (v : Node) : List Node :=
  if v ∈ s then s else v :: s

/-- Replace the first entry with key `u` by the same key with `v` inserted
into its neighbor set; embeds the `Entry::Occupied` branch of
`add_directed_edge`. -/
def updateA : AdjList → Node → Node → AdjList
  | [], _, _ => []
  | (k, s) :: rest, u, v =>
    if k = u then (k, insertNeighbor s v) :: rest else (k, s) :: updateA rest u v

/-- The graph: a single field `adj`, the adjacency mapping
(`src/main.rs:13-15`). -/
structure Graph where
  adj : AdjList
deriving DecidableEq

/-- `Graph::new` (`src/main.rs:22-24`). -/
def Graph.new : Graph := ⟨[]⟩

/-- `Graph::add_node` (`src/main.rs:28-30`): `entry(u).or_insert(empty)`. -/
def Graph.add_node (g : Graph) (u : Node) : Graph :=
  match lookupA g.adj u with
  | some _ => g
  | none => ⟨g.adj ++ [(u, [])]⟩

/-- `Graph::add_directed_edge` (`src/main.rs:46-55`). -/
def Graph.add_directed_edge (g : Graph) (u v : Node) : Graph :=
  match lookupA g.adj u with
  | some _ => ⟨updateA g.adj u v⟩
  | none => ⟨g.adj ++ [(u, [v])]⟩

/-- `Graph::add_edge` (`src/main.rs:58-61`): both directed arcs. -/
def Graph.add_edge (g : Graph) (u v : Node) : Graph :=
  (g.add_directed_edge u v).add_directed_edge v u

/-- `Graph::nodes` (`src/main.rs:64-66`): all keys of the adjacency map. -/
def Graph.nodes (g : Graph) : List Node :=
  g.adj.map Prod.fst

/-- `Graph::adj` (`src/main.rs:69-71`), the accessor (named `adj?` because
the field of the same name exists; it returns `none` for an unknown key). -/
def Graph.adj? (g : Graph) (u : Node) : Option (List Node) :=
  lookupA g.adj u

/-- The neighbor set of `u`, empty when `u` is not a key; `self.adj.get(&u)`
flattened with the empty default (as the BFS effectively treats it). -/
def neighborsOf (g : Graph) (u : Node) : List Node :=
  (lookupA g.adj u).getD []

/-- One call of the public mutation API. -/
inductive Op where
  | addNode (u : Node)
  | addEdge (u v : Node)
deriving DecidableEq

def applyOp (g : Graph) : Op → Graph
  | .addNode u => g.add_node u
  | .addEdge u v => g.add_edge u v

/-- The graph built by a sequence of `add_node`/`add_edge` calls starting
from `Graph::new`. -/
def buildGraph (ops : List Op) : Graph :=
  ops.foldl applyOp Graph.new

/-- The body of the BFS `while let` loop of `degrees_of_separation`
(`src/main.rs:85-105`), fuel-indexed: result `none` means the fuel ran out,
`some r` means the loop exited with result `r` (`r = some d`: `end` was
dequeued at distance `d`; `r = none`: the queue emptied, no path). -/
def bfsLoop (g : Graph) (en : Node) : Nat → List Node → List (Node × Nat) → Option (Option Nat)
  | 0, _, _ => none
  | _ + 1, _, [] => some none
  | fuel + 1, visited, (current, distance) :: rest =>
    if current = en then some (some distance)
    else if current ∈ visited then bfsLoop g en fuel visited rest
    else
      match lookupA g.adj current with
      | some neighbors =>
        bfsLoop g en fuel (current :: visited)
          (rest ++ (neighbors.filter (fun v => decide (v ∉ current :: visited))).map
            (fun v => (v, distance + 1)))
      | none => bfsLoop g en fuel (current :: visited) rest

/-- Total size of the neighbor sets of the keys not yet visited; every loop
iteration strictly decreases `queue.length + potential`, so this bounds the
number of iterations left. -/
def potential (l : AdjList) (visited : List Node) : Nat :=
  ((l.filter (fun p => decide (p.1 ∉ visited))).map (fun p => p.2.length)).sum

/-- Fuel sufficient for the BFS loop from the initial state. -/
def bfsFuel (g : Graph) : Nat := potential g.adj [] + 2

/-- `Graph::degrees_of_separation` (`src/main.rs:74-107`). -/
def Graph.degrees_of_separation (g : Graph) (start en : Node) : Option Nat :=
  if start = en then some 0
  else (bfsLoop g en (bfsFuel g) [] [(start, 0)]).getD none

/-- Modelled from the spec (§9, BFS revisit-on-enqueue duplication): the
variant of the loop that "enqueues neighbors without checking
visited-status at enqueue time (only at dequeue time)".  Identical to
`bfsLoop` except that the pushed neighbor list is not filtered. -/
def bfsLoopNoCheck (g : Graph) (en : Node) : Nat → List Node → List (Node × Nat) → Option (Option Nat)
  | 0, _, _ => none
  | _ + 1, _, [] => some none
  | fuel + 1, visited, (current, distance) :: rest =>
    if current = en then some (some distance)
    else if current ∈ visited then bfsLoopNoCheck g en fuel visited rest
    else
      match lookupA g.adj current with
      | some neighbors =>
        bfsLoopNoCheck g en fuel (current :: visited)
          (rest ++ neighbors.map (fun v => (v, distance + 1)))
      | none => bfsLoopNoCheck g en fuel (current :: visited) rest

/-- Modelled from the spec (§9): `degrees_of_separation` computed by the
unfiltered-enqueue BFS variant. -/
def degrees_of_separation_noCheck (g : Graph) (start en : Node) : Option Nat :=
  if start = en then some 0
  else (bfsLoopNoCheck g en (bfsFuel g) [] [(start, 0)]).getD none

/-- A directed-arc path of `n` edges from `u` to `w` along the stored
adjacency sets. -/
inductive PathLen (g : Graph) : Node → Node → Nat → Prop
  | refl (u : Node) : PathLen g u u 0
  | step {u v w : Node} {n : Nat} (h : v ∈ neighborsOf g u) (p : PathLen g v w n) :
      PathLen g u w (n + 1)

/-- An undirected edge between `u` and `v`: either stored arc. -/
def uedge (g : Graph) (u v : Node) : Prop :=
  v ∈ neighborsOf g u ∨ u ∈ neighborsOf g v

/-- A path of `n` edges in the undirected graph. -/
inductive UPathLen (g : Graph) : Node → Node → Nat → Prop
  | refl (u : Node) : UPathLen g u u 0
  | step {u v w : Node} {n : Nat} (h : uedge g u v) (p : UPathLen g v w n) :
      UPathLen g u w (n + 1)

/-- Symmetry of the stored adjacency relation. -/
def Symm (g : Graph) : Prop :=
  ∀ u v : Node, v ∈ neighborsOf g u ↔ u ∈ neighborsOf g v

/-- Closure: every stored neighbor is a key of the adjacency map. -/
def Closed (g : Graph) : Prop :=
  ∀ u x : Node, x ∈ neighborsOf g u → x ∈ g.nodes

/-- The entries pushed when a fresh node `c` is dequeued at distance `d`:
its neighbors not yet visited, at distance `d + 1`. -/
def pushes (g : Graph) (visited : List Node) (c : Node) (d : Nat) : List (Node × Nat) :=
  ((neighborsOf g c).filter (fun v => decide (v ∉ c :: visited))).map (fun v => (v, d + 1))

/-- The invariant of the BFS loop state: recorded distances are genuine path
lengths, the queue is sorted within two consecutive levels, every visited
node has a path no longer than any queued distance, every reachable node is
covered through an unvisited queue entry within its distance budget, and the
target has never been marked visited. -/
structure BfsInv (g : Graph) (s en : Node) (visited : List Node)
    (queue : List (Node × Nat)) : Prop where
  sound : ∀ a b, (a, b) ∈ queue → PathLen g s a b
  sorted : queue.Pairwise (fun p q => p.2 ≤ q.2)
  twoLevel : ∀ a b, (a, b) ∈ queue → ∀ a' b', (a', b') ∈ queue → b ≤ b' + 1
  visitedSmall : ∀ v ∈ visited, ∃ dv, PathLen g s v dv ∧ ∀ a b, (a, b) ∈ queue → dv ≤ b
  cover : ∀ m w, PathLen g s w m → w ∈ visited ∨
    ∃ a b, (a, b) ∈ queue ∧ a ∉ visited ∧ ∃ j, PathLen g a w j ∧ b + j ≤ m
  enNotVisited : en ∉ visited

/-- The unfiltered queue `qn` is the filtered queue `qc` with extra entries
interspersed, each extra entry carrying an already-visited node. -/
inductive QRel (visited : List Node) : List (Node × Nat) → List (Node × Nat) → Prop
  | nil : QRel visited [] []
  | keep {p : Node × Nat} {qc qn : List (Node × Nat)} :
      QRel visited qc qn → QRel visited (p :: qc) (p :: qn)
  | extra {p : Node × Nat} {qc qn : List (Node × Nat)} :
      p.1 ∈ visited → QRel visited qc qn → QRel visited qc (p :: qn)

/-- Kinds of failure of the import boundary (§7): opening failures and
row-format failures. -/
inductive CsvError where
  | ioError
  | formatError
deriving DecidableEq

/-- Modelled from the spec (§6, §7): the file/CSV-reading boundary used by
`add_from_csv` (`File::open` and the `csv` crate's record iterator) is
external to this repository's source.  A source that cannot be opened is
`none`; an openable source is the list of its data rows, each either
`some name` (the row's first-column value) or `none` (a row missing its
expected column, surfaced by the reader as a format-kind error). -/
def CsvSource : Type := Option (List (Option String))

/-- The row loop of `add_from_csv` (`src/main.rs:114-118`): `result?`
propagates a row failure, otherwise the first column is passed to
`add_node`. -/
def addRows (g : Graph) : List (Option String) → Except CsvError Graph
  | [] => .ok g
  | none :: _ => .error .formatError
  | some name :: rest => addRows (g.add_node name) rest

/-- `Graph::add_from_csv` (`src/main.rs:110-121`) over the modelled
boundary: `File::open(filename)?` turns an unopenable source into an
I/O-kind error returned to the caller. -/
def Graph.add_from_csv (g : Graph) (src : CsvSource) : Except CsvError Graph :=
  match src with
  | none => .error .ioError
  | some rows => addRows g rows

/-! ### Lookup and mutation characterizations -/

theorem lookupA_append (l l' : AdjList) (u : Node) :
    lookupA (l ++ l') u = match lookupA l u with
      | some s => some s
      | none => lookupA l' u := by
  induction l with
  | nil => simp [lookupA]
  | cons p rest ih =>
    obtain ⟨k, s⟩ := p
    by_cases h : k = u <;> simp [lookupA, h, ih]

theorem lookupA_eq_none_iff (l : AdjList) (u : Node) :
    lookupA l u = none ↔ u ∉ l.map Prod.fst := by
  induction l with
  | nil => simp [lookupA]
  | cons p rest ih =>
    obtain ⟨k, s⟩ := p
    by_cases h : k = u
    · subst h
      simp [lookupA]
    · simp only [lookupA, if_neg h, ih, List.map_cons, List.mem_cons]
      constructor
      · rintro hn (hk | hm)
        · exact h hk.symm
        · exact hn hm
      · intro hn hm
        exact hn (Or.inr hm)

theorem lookupA_isSome_iff (l : AdjList) (u : Node) :
    (lookupA l u).isSome ↔ u ∈ l.map Prod.fst := by
  rcases hl : lookupA l u with _ | s
  · rw [lookupA_eq_none_iff] at hl
    simp [hl]
  · simp only [Option.isSome_some, true_iff]
    by_contra hm
    rw [← lookupA_eq_none_iff] at hm
    rw [hm] at hl
    exact Option.noConfusion hl

theorem lookupA_updateA (l : AdjList) (u v w : Node) :
    lookupA (updateA l u v) w =
      if w = u then (lookupA l u).map (fun s => insertNeighbor s v)
      else lookupA l w := by
  induction l with
  | nil => simp [lookupA, updateA]
  | cons p rest ih =>
    obtain ⟨k, s⟩ := p
    by_cases hku : k = u
    · subst hku
      by_cases hwk : w = k
      · subst hwk
        simp [updateA, lookupA]
      · have hkw : ¬k = w := fun h => hwk h.symm
        simp [updateA, lookupA, hkw, hwk]
    · by_cases hwk : w = k
      · subst hwk
        simp [updateA, lookupA, hku]
      · have hkw : ¬k = w := fun h => hwk h.symm
        simp [updateA, lookupA, hku, hkw, ih]

theorem keys_updateA (l : AdjList) (u v : Node) :
    (updateA l u v).map Prod.fst = l.map Prod.fst := by
  induction l with
  | nil => simp [updateA]
  | cons p rest ih =>
    obtain ⟨k, s⟩ := p
    by_cases h : k = u <;> simp [updateA, h, ih]

theorem mem_insertNeighbor (s : List Node) (v x : Node) :
    x ∈ insertNeighbor s v ↔ x = v ∨ x ∈ s := by
  unfold insertNeighbor
  by_cases h : v ∈ s
  · simp [h]
    intro hx
    subst hx
    exact h
  · simp [h]

theorem insertNeighbor_eq_self {s : List Node} {v : Node} (h : v ∈ s) :
    insertNeighbor s v = s := by
  simp [insertNeighbor, h]

/-- Membership in the adjacency sets after `add_directed_edge`. -/
theorem mem_neighborsOf_add_directed_edge (g : Graph) (u v w x : Node) :
    x ∈ neighborsOf (g.add_directed_edge u v) w ↔
      (w = u ∧ x = v) ∨ x ∈ neighborsOf g w := by
  unfold Graph.add_directed_edge
  cases hu : lookupA g.adj u with
  | some s =>
    simp only [neighborsOf, lookupA_updateA]
    by_cases hw : w = u
    · subst hw
      simp [hu, mem_insertNeighbor, Or.comm]
    · simp [hw]
  | none =>
    simp only [neighborsOf, lookupA_append]
    by_cases hw : w = u
    · subst hw
      simp [hu, lookupA]
    · have hw' : ¬u = w := fun h => hw h.symm
      cases hl : lookupA g.adj w <;> simp [hl, lookupA, hw, hw']

/-- Membership in the adjacency sets after `add_edge`. -/
theorem mem_neighborsOf_add_edge (g : Graph) (u v w x : Node) :
    x ∈ neighborsOf (g.add_edge u v) w ↔
      (w = v ∧ x = u) ∨ (w = u ∧ x = v) ∨ x ∈ neighborsOf g w := by
  unfold Graph.add_edge
  rw [mem_neighborsOf_add_directed_edge, mem_neighborsOf_add_directed_edge]

/-- `add_node` never changes any neighbor set. -/
theorem neighborsOf_add_node (g : Graph) (u w : Node) :
    neighborsOf (g.add_node u) w = neighborsOf g w := by
  unfold Graph.add_node
  cases hu : lookupA g.adj u with
  | some s => rfl
  | none =>
    simp only [neighborsOf, lookupA_append]
    by_cases hw : w = u
    · subst hw
      simp [hu, lookupA]
    · have hw' : ¬u = w := fun h => hw h.symm
      cases hl : lookupA g.adj w <;> simp [hl, lookupA, hw']

/-- Node-set membership after `add_node`. -/
theorem mem_nodes_add_node (g : Graph) (u w : Node) :
    w ∈ (g.add_node u).nodes ↔ w = u ∨ w ∈ g.nodes := by
  unfold Graph.add_node Graph.nodes
  cases hu : lookupA g.adj u with
  | some s =>
    simp only
    constructor
    · exact Or.inr
    · rintro (rfl | h)
      · rw [← lookupA_isSome_iff, hu]
        rfl
      · exact h
  | none => simp [Or.comm]

/-- Node-set membership after `add_directed_edge`. -/
theorem mem_nodes_add_directed_edge (g : Graph) (u v w : Node) :
    w ∈ (g.add_directed_edge u v).nodes ↔ w = u ∨ w ∈ g.nodes := by
  unfold Graph.add_directed_edge Graph.nodes
  cases hu : lookupA g.adj u with
  | some s =>
    simp only [keys_updateA]
    constructor
    · exact Or.inr
    · rintro (rfl | h)
      · rw [← lookupA_isSome_iff, hu]
        rfl
      · exact h
  | none => simp [Or.comm]

/-- Node-set membership after `add_edge`. -/
theorem mem_nodes_add_edge (g : Graph) (u v w : Node) :
    w ∈ (g.add_edge u v).nodes ↔ w = v ∨ w = u ∨ w ∈ g.nodes := by
  unfold Graph.add_edge
  rw [mem_nodes_add_directed_edge, mem_nodes_add_directed_edge]

/-- A node with a nonempty neighbor set is a key. -/
theorem mem_nodes_of_neighborsOf_ne_nil {g : Graph} {u : Node}
    (h : neighborsOf g u ≠ []) : u ∈ g.nodes := by
  unfold Graph.nodes
  rw [← lookupA_isSome_iff]
  unfold neighborsOf at h
  cases hl : lookupA g.adj u with
  | some s => rfl
  | none => simp [hl] at h

/-! ### Path lemmas -/

theorem PathLen.snoc {g : Graph} {s u v : Node} {n : Nat}
    (p : PathLen g s u n) (h : v ∈ neighborsOf g u) : PathLen g s v (n + 1) := by
  induction p with
  | refl w => exact PathLen.step h (PathLen.refl v)
  | step h' _ ih => exact PathLen.step h' (ih h)

theorem PathLen.trans {g : Graph} {s u w : Node} {a b : Nat}
    (p : PathLen g s u a) (q : PathLen g u w b) : PathLen g s w (a + b) := by
  induction p with
  | refl _ =>
    simpa using q
  | step h' _ ih =>
    have := PathLen.step h' (ih q)
    simpa [Nat.add_assoc, Nat.add_comm, Nat.add_left_comm] using this

theorem PathLen.eq_of_len_zero {g : Graph} {u w : Node} (p : PathLen g u w 0) : u = w := by
  cases p
  rfl

theorem PathLen.inv_succ {g : Graph} {u w : Node} {n : Nat}
    (p : PathLen g u w (n + 1)) : ∃ v, v ∈ neighborsOf g u ∧ PathLen g v w n := by
  cases p with
  | step h q => exact ⟨_, h, q⟩

theorem PathLen.toUPathLen {g : Graph} {u w : Node} {n : Nat}
    (p : PathLen g u w n) : UPathLen g u w n := by
  induction p with
  | refl v => exact UPathLen.refl v
  | step h _ ih => exact UPathLen.step (Or.inl h) ih

theorem UPathLen.toPathLen {g : Graph} (hs : Symm g) {u w : Node} {n : Nat}
    (p : UPathLen g u w n) : PathLen g u w n := by
  induction p with
  | refl v => exact PathLen.refl v
  | step h _ ih =>
    rcases h with h | h
    · exact PathLen.step h ih
    · exact PathLen.step ((hs _ _).mpr h) ih

theorem pathLen_iff_uPathLen {g : Graph} (hs : Symm g) {u w : Node} {n : Nat} :
    PathLen g u w n ↔ UPathLen g u w n :=
  ⟨PathLen.toUPathLen, UPathLen.toPathLen hs⟩

/-! ### Invariants of graphs built by the mutation API -/

theorem symm_applyOp {g : Graph} (hs : Symm g) (op : Op) : Symm (applyOp g op) := by
  cases op with
  | addNode u =>
    intro a b
    simp only [applyOp, neighborsOf_add_node]
    exact hs a b
  | addEdge u v =>
    intro a b
    simp only [applyOp, mem_neighborsOf_add_edge]
    rw [hs a b]
    tauto

theorem closed_applyOp {g : Graph} (hc : Closed g) (op : Op) : Closed (applyOp g op) := by
  cases op with
  | addNode u =>
    intro a x hx
    simp only [applyOp, neighborsOf_add_node] at hx
    simp only [applyOp, mem_nodes_add_node]
    exact Or.inr (hc a x hx)
  | addEdge u v =>
    intro a x hx
    simp only [applyOp, mem_neighborsOf_add_edge] at hx
    simp only [applyOp, mem_nodes_add_edge]
    rcases hx with ⟨_, rfl⟩ | ⟨_, rfl⟩ | hx
    · exact Or.inr (Or.inl rfl)
    · exact Or.inl rfl
    · exact Or.inr (Or.inr (hc a x hx))

theorem symm_foldl (ops : List Op) {g : Graph} (hs : Symm g) :
    Symm (ops.foldl applyOp g) := by
  induction ops generalizing g with
  | nil => exact hs
  | cons op rest ih => exact ih (symm_applyOp hs op)

theorem closed_foldl (ops : List Op) {g : Graph} (hc : Closed g) :
    Closed (ops.foldl applyOp g) := by
  induction ops generalizing g with
  | nil => exact hc
  | cons op rest ih => exact ih (closed_applyOp hc op)

theorem symm_new : Symm Graph.new := by
  intro u v
  simp [neighborsOf, Graph.new, lookupA]

theorem closed_new : Closed Graph.new := by
  intro u x hx
  simp [neighborsOf, Graph.new, lookupA] at hx

theorem symm_buildGraph (ops : List Op) : Symm (buildGraph ops) :=
  symm_foldl ops symm_new

theorem closed_buildGraph (ops : List Op) : Closed (buildGraph ops) :=
  closed_foldl ops closed_new

theorem UPathLen.eq_of_ulen_zero {g : Graph} {u w : Node} (p : UPathLen g u w 0) : u = w := by
  cases p
  rfl

/-- In a closed graph, the first endpoint of a nonempty undirected path is a key. -/
theorem uPathLen_first_mem {g : Graph} (hc : Closed g) {s e : Node} {n : Nat}
    (p : UPathLen g s e (n + 1)) : s ∈ g.nodes := by
  cases p with
  | step h q =>
    rcases h with h | h
    · exact mem_nodes_of_neighborsOf_ne_nil (List.ne_nil_of_mem h)
    · exact hc _ _ h

/-- In a closed graph, the last endpoint of a nonempty undirected path is a key. -/
theorem uPathLen_last_mem {g : Graph} (hc : Closed g) :
    ∀ n s e, UPathLen g s e (n + 1) → e ∈ g.nodes := by
  intro n
  induction n with
  | zero =>
    intro s e p
    cases p with
    | step h q =>
      obtain rfl := q.eq_of_ulen_zero
      rcases h with h | h
      · exact hc _ _ h
      · exact mem_nodes_of_neighborsOf_ne_nil (List.ne_nil_of_mem h)
  | succ m ih =>
    intro s e p
    cases p with
    | step h q => exact ih _ _ q

/-! ### Idempotence and frame lemmas -/

theorem updateA_eq_self {l : AdjList} {u v : Node} {s : List Node}
    (hl : lookupA l u = some s) (hv : v ∈ s) : updateA l u v = l := by
  induction l with
  | nil => simp [lookupA] at hl
  | cons p rest ih =>
    obtain ⟨k, t⟩ := p
    by_cases hk : k = u
    · subst hk
      simp [lookupA] at hl
      subst hl
      simp [updateA, insertNeighbor_eq_self hv]
    · simp only [lookupA, if_neg hk] at hl
      simp [updateA, hk, ih hl]

theorem add_node_mem_eq_self {g : Graph} {u : Node} (h : u ∈ g.nodes) :
    g.add_node u = g := by
  unfold Graph.add_node
  split
  · rfl
  · rename_i hl
    rw [lookupA_eq_none_iff] at hl
    exact absurd h hl

theorem add_directed_edge_eq_self {g : Graph} {u v : Node} (h : v ∈ neighborsOf g u) :
    g.add_directed_edge u v = g := by
  unfold Graph.add_directed_edge
  split
  · rename_i s hl
    have hv : v ∈ s := by
      unfold neighborsOf at h
      rw [hl] at h
      simpa using h
    rw [updateA_eq_self hl hv]
  · rename_i hl
    unfold neighborsOf at h
    rw [hl] at h
    simp at h

theorem add_edge_eq_self {g : Graph} {u v : Node}
    (huv : v ∈ neighborsOf g u) (hvu : u ∈ neighborsOf g v) :
    g.add_edge u v = g := by
  unfold Graph.add_edge
  rw [add_directed_edge_eq_self huv, add_directed_edge_eq_self hvu]

theorem adj?_eq_none_iff (g : Graph) (u : Node) :
    g.adj? u = none ↔ u ∉ g.nodes :=
  lookupA_eq_none_iff g.adj u

theorem adj?_add_directed_edge_ne {g : Graph} {u v w : Node} (hw : w ≠ u) :
    (g.add_directed_edge u v).adj? w = g.adj? w := by
  unfold Graph.add_directed_edge Graph.adj?
  split
  · rw [lookupA_updateA, if_neg hw]
  · rw [lookupA_append]
    have hw' : ¬u = w := fun h => hw h.symm
    rcases hl : lookupA g.adj w with _ | s <;> simp [hl, lookupA, hw']

theorem adj?_add_edge_ne {g : Graph} {u v w : Node} (hwu : w ≠ u) (hwv : w ≠ v) :
    (g.add_edge u v).adj? w = g.adj? w := by
  unfold Graph.add_edge
  rw [adj?_add_directed_edge_ne hwv, adj?_add_directed_edge_ne hwu]

theorem adj?_add_node_mem {g : Graph} {u w : Node} (hw : w ∈ g.nodes) :
    (g.add_node u).adj? w = g.adj? w := by
  unfold Graph.add_node Graph.adj?
  split
  · rfl
  · rw [lookupA_append]
    rcases hl : lookupA g.adj w with _ | s
    · rw [lookupA_eq_none_iff] at hl
      exact absurd hw hl
    · simp [hl]

theorem mem_nodes_applyOp {g : Graph} {w : Node} (h : w ∈ g.nodes) (op : Op) :
    w ∈ (applyOp g op).nodes := by
  cases op with
  | addNode u =>
    rw [applyOp, mem_nodes_add_node]
    exact Or.inr h
  | addEdge u v =>
    rw [applyOp, mem_nodes_add_edge]
    exact Or.inr (Or.inr h)

theorem mem_neighborsOf_applyOp {g : Graph} {w x : Node}
    (h : x ∈ neighborsOf g w) (op : Op) : x ∈ neighborsOf (applyOp g op) w := by
  cases op with
  | addNode u =>
    rw [applyOp, neighborsOf_add_node]
    exact h
  | addEdge u v =>
    rw [applyOp, mem_neighborsOf_add_edge]
    exact Or.inr (Or.inr h)

/-! ### Termination of the BFS loop -/

theorem potential_cons (k : Node) (s : List Node) (rest : AdjList) (vis : List Node) :
    potential ((k, s) :: rest) vis =
      (if k ∈ vis then 0 else s.length) + potential rest vis := by
  by_cases h : k ∈ vis <;> simp [potential, List.filter_cons, h]

theorem potential_cons_visited_le (l : AdjList) (c : Node) (vis : List Node) :
    potential l (c :: vis) ≤ potential l vis := by
  induction l with
  | nil => exact Nat.le_refl _
  | cons p rest ih =>
    obtain ⟨k, s⟩ := p
    rw [potential_cons, potential_cons]
    have h1 : (if k ∈ c :: vis then 0 else s.length) ≤ (if k ∈ vis then 0 else s.length) := by
      by_cases h : k ∈ vis
      · simp [h, List.mem_cons]
      · split <;> simp
    exact Nat.add_le_add h1 ih

theorem potential_visit {l : AdjList} {c : Node} {ns : List Node} {vis : List Node}
    (hl : lookupA l c = some ns) (hc : c ∉ vis) :
    potential l (c :: vis) + ns.length ≤ potential l vis := by
  induction l with
  | nil => simp [lookupA] at hl
  | cons p rest ih =>
    obtain ⟨k, s⟩ := p
    rw [potential_cons, potential_cons]
    by_cases hk : k = c
    · subst hk
      simp [lookupA] at hl
      subst hl
      simp only [List.mem_cons, true_or, if_pos, if_neg hc]
      have := potential_cons_visited_le rest k vis
      omega
    · simp only [lookupA, if_neg hk] at hl
      have h2 := ih hl
      have h1 : (if k ∈ c :: vis then 0 else s.length) = (if k ∈ vis then 0 else s.length) := by
        simp [List.mem_cons, hk]
      rw [h1]
      omega

theorem bfsLoop_terminates (g : Graph) (en : Node) :
    ∀ fuel visited queue, queue.length + potential g.adj visited < fuel →
      ∃ r, bfsLoop g en fuel visited queue = some r := by
  intro fuel
  induction fuel with
  | zero =>
    intro visited queue h
    omega
  | succ f ih =>
    intro visited queue h
    match queue with
    | [] => exact ⟨none, rfl⟩
    | (c, d) :: rest =>
      by_cases hce : c = en
      · exact ⟨some d, by simp [bfsLoop, hce]⟩
      · by_cases hcv : c ∈ visited
        · obtain ⟨r, hr⟩ := ih visited rest (by simp at h; omega)
          exact ⟨r, by simp [bfsLoop, hce, hcv, hr]⟩
        · rcases hl : lookupA g.adj c with _ | ns
          · obtain ⟨r, hr⟩ := ih (c :: visited) rest (by
              have := potential_cons_visited_le g.adj c visited
              simp at h
              omega)
            exact ⟨r, by simp [bfsLoop, hce, hcv, hl, hr]⟩
          · obtain ⟨r, hr⟩ := ih (c :: visited)
              (rest ++ (ns.filter (fun v => decide (v ∉ c :: visited))).map (fun v => (v, d + 1)))
              (by
                have h1 := potential_visit hl hcv
                have h2 : (ns.filter (fun v => decide (v ∉ c :: visited))).length ≤ ns.length :=
                  List.length_filter_le _ _
                simp only [List.length_append, List.length_map, List.length_cons] at h ⊢
                omega)
            exact ⟨r, by
              simp only [bfsLoop, if_neg hce, if_neg hcv, hl]
              exact hr⟩

theorem bfsLoop_mono (g : Graph) (en : Node) :
    ∀ fuel fuel' visited queue r, fuel ≤ fuel' →
      bfsLoop g en fuel visited queue = some r →
      bfsLoop g en fuel' visited queue = some r := by
  intro fuel
  induction fuel with
  | zero =>
    intro f' v q r _ h
    simp [bfsLoop] at h
  | succ f ih =>
    intro f' v q r hle h
    match f' with
    | 0 => omega
    | f'' + 1 =>
      have hle'' : f ≤ f'' := Nat.le_of_succ_le_succ hle
      match q with
      | [] => exact h
      | (c, d) :: rest =>
        by_cases hce : c = en
        · simpa [bfsLoop, hce] using h
        · by_cases hcv : c ∈ v
          · simp only [bfsLoop, if_neg hce, if_pos hcv] at h ⊢
            exact ih f'' v rest r hle'' h
          · rcases hl : lookupA g.adj c with _ | ns
            · simp only [bfsLoop, if_neg hce, if_neg hcv, hl] at h ⊢
              exact ih f'' (c :: v) rest r hle'' h
            · simp only [bfsLoop, if_neg hce, if_neg hcv, hl] at h ⊢
              exact ih f'' (c :: v) _ r hle'' h

theorem bfsLoopNoCheck_terminates (g : Graph) (en : Node) :
    ∀ fuel visited queue, queue.length + potential g.adj visited < fuel →
      ∃ r, bfsLoopNoCheck g en fuel visited queue = some r := by
  intro fuel
  induction fuel with
  | zero =>
    intro visited queue h
    omega
  | succ f ih =>
    intro visited queue h
    match queue with
    | [] => exact ⟨none, rfl⟩
    | (c, d) :: rest =>
      by_cases hce : c = en
      · exact ⟨some d, by simp [bfsLoopNoCheck, hce]⟩
      · by_cases hcv : c ∈ visited
        · obtain ⟨r, hr⟩ := ih visited rest (by simp at h; omega)
          exact ⟨r, by simp [bfsLoopNoCheck, hce, hcv, hr]⟩
        · rcases hl : lookupA g.adj c with _ | ns
          · obtain ⟨r, hr⟩ := ih (c :: visited) rest (by
              have := potential_cons_visited_le g.adj c visited
              simp at h
              omega)
            exact ⟨r, by simp [bfsLoopNoCheck, hce, hcv, hl, hr]⟩
          · obtain ⟨r, hr⟩ := ih (c :: visited)
              (rest ++ ns.map (fun v => (v, d + 1)))
              (by
                have h1 := potential_visit hl hcv
                simp only [List.length_append, List.length_map, List.length_cons] at h ⊢
                omega)
            exact ⟨r, by simp [bfsLoopNoCheck, hce, hcv, hl, hr]⟩

/-! ### The BFS loop invariant -/

theorem pushes_snd {g : Graph} {visited : List Node} {c : Node} {d : Nat}
    {p : Node × Nat} (hp : p ∈ pushes g visited c d) : p.2 = d + 1 := by
  simp only [pushes, List.mem_map] at hp
  obtain ⟨v, _, rfl⟩ := hp
  rfl

theorem pushes_fst_mem {g : Graph} {visited : List Node} {c : Node} {d : Nat}
    {p : Node × Nat} (hp : p ∈ pushes g visited c d) : p.1 ∈ neighborsOf g c := by
  simp only [pushes, List.mem_map, List.mem_filter] at hp
  obtain ⟨v, ⟨hv, _⟩, rfl⟩ := hp
  exact hv

theorem pushes_fst_not_vis {g : Graph} {visited : List Node} {c : Node} {d : Nat}
    {p : Node × Nat} (hp : p ∈ pushes g visited c d) : p.1 ∉ c :: visited := by
  simp only [pushes, List.mem_map, List.mem_filter] at hp
  obtain ⟨v, ⟨_, hv⟩, rfl⟩ := hp
  simpa using hv

theorem mem_pushes_of {g : Graph} {visited : List Node} {c v : Node} {d : Nat}
    (hv : v ∈ neighborsOf g c) (hnv : v ∉ c :: visited) :
    (v, d + 1) ∈ pushes g visited c d := by
  simp only [pushes, List.mem_map, List.mem_filter]
  exact ⟨v, ⟨hv, by simpa using hnv⟩, rfl⟩

theorem pairwiseOfMem {α : Type} {r : α → α → Prop} :
    ∀ {l : List α}, (∀ a ∈ l, ∀ b ∈ l, r a b) → l.Pairwise r
  | [], _ => List.Pairwise.nil
  | x :: xs, h =>
    List.Pairwise.cons (fun b hb => h x (List.mem_cons_self x xs) b (List.mem_cons_of_mem x hb))
      (pairwiseOfMem fun a ha b hb =>
        h a (List.mem_cons_of_mem x ha) b (List.mem_cons_of_mem x hb))

theorem bfsInv_init (g : Graph) (s en : Node) : BfsInv g s en [] [(s, 0)] where
  sound := by
    intro a b hab
    simp only [List.mem_singleton, Prod.mk.injEq] at hab
    obtain ⟨rfl, rfl⟩ := hab
    exact PathLen.refl _
  sorted := List.pairwise_singleton _ _
  twoLevel := by
    intro a b hab a' b' hab'
    simp only [List.mem_singleton, Prod.mk.injEq] at hab hab'
    omega
  visitedSmall := by
    intro v hv
    simp at hv
  cover := by
    intro m w hp
    refine Or.inr ⟨s, 0, List.mem_singleton.mpr rfl, by simp, m, hp, by omega⟩
  enNotVisited := List.not_mem_nil en

theorem bfsInv_pop_visited {g : Graph} {s en : Node} {visited : List Node}
    {c : Node} {d : Nat} {rest : List (Node × Nat)}
    (inv : BfsInv g s en visited ((c, d) :: rest)) (hcv : c ∈ visited) :
    BfsInv g s en visited rest where
  sound := fun a b hab => inv.sound a b (List.mem_cons_of_mem _ hab)
  sorted := (List.pairwise_cons.mp inv.sorted).2
  twoLevel := fun a b hab a' b' hab' =>
    inv.twoLevel a b (List.mem_cons_of_mem _ hab) a' b' (List.mem_cons_of_mem _ hab')
  visitedSmall := by
    intro v hv
    obtain ⟨dv, h1, h2⟩ := inv.visitedSmall v hv
    exact ⟨dv, h1, fun a b hab => h2 a b (List.mem_cons_of_mem _ hab)⟩
  cover := by
    intro m w hp
    rcases inv.cover m w hp with h | ⟨a, b, hab, hav, j, hpl, hle⟩
    · exact Or.inl h
    · rcases List.mem_cons.mp hab with heq | hmem
      · injection heq with h1 h2
        subst h1
        exact absurd hcv hav
      · exact Or.inr ⟨a, b, hmem, hav, j, hpl, hle⟩
  enNotVisited := inv.enNotVisited

/-- Coverage of the nodes reachable through the freshly dequeued node `c`. -/
theorem bfs_cover_via {g : Graph} {s en : Node} {visited : List Node}
    {c : Node} {d : Nat} {rest : List (Node × Nat)}
    (inv : BfsInv g s en visited ((c, d) :: rest)) (hcv : c ∉ visited) {m : Nat}
    (outerIH : ∀ m', m' < m → ∀ w, PathLen g s w m' →
      w ∈ c :: visited ∨ ∃ a b, (a, b) ∈ rest ++ pushes g visited c d ∧
        a ∉ c :: visited ∧ ∃ j, PathLen g a w j ∧ b + j ≤ m') :
    ∀ j w, PathLen g c w j → d + j ≤ m →
      w ∈ c :: visited ∨ ∃ a b, (a, b) ∈ rest ++ pushes g visited c d ∧
        a ∉ c :: visited ∧ ∃ j', PathLen g a w j' ∧ b + j' ≤ m := by
  intro j
  induction j using Nat.strong_induction_on with
  | _ j ihj =>
    intro w hpath hle
    cases j with
    | zero =>
      left
      have : c = w := hpath.eq_of_len_zero
      rw [← this]
      exact List.mem_cons_self c visited
    | succ j₁ =>
      obtain ⟨v, hv, pv⟩ := hpath.inv_succ
      by_cases hvv : v ∈ c :: visited
      · rcases List.mem_cons.mp hvv with rfl | hvV
        · exact ihj j₁ (Nat.lt_succ_self _) w pv (by omega)
        · obtain ⟨dv, pdv, hdv⟩ := inv.visitedSmall v hvV
          have hdvd : dv ≤ d := hdv c d (List.mem_cons_self _ _)
          have pw : PathLen g s w (dv + j₁) := pdv.trans pv
          have hlt : dv + j₁ < m := by omega
          rcases outerIH (dv + j₁) hlt w pw with h | ⟨a, b, hab, hav, j', hpl', hle'⟩
          · exact Or.inl h
          · exact Or.inr ⟨a, b, hab, hav, j', hpl', by omega⟩
      · right
        refine ⟨v, d + 1, List.mem_append_right _ (mem_pushes_of hv hvv), hvv, j₁, pv, by omega⟩

theorem bfsInv_pop_fresh {g : Graph} {s en : Node} {visited : List Node}
    {c : Node} {d : Nat} {rest : List (Node × Nat)}
    (inv : BfsInv g s en visited ((c, d) :: rest)) (hce : c ≠ en) (hcv : c ∉ visited) :
    BfsInv g s en (c :: visited) (rest ++ pushes g visited c d) where
  sound := by
    intro a b hab
    rcases List.mem_append.mp hab with h | h
    · exact inv.sound a b (List.mem_cons_of_mem _ h)
    · have h2 : b = d + 1 := pushes_snd h
      have h1 : a ∈ neighborsOf g c := pushes_fst_mem h
      subst h2
      exact (inv.sound c d (List.mem_cons_self _ _)).snoc h1
  sorted := by
    rw [List.pairwise_append]
    have hrest : ∀ x ∈ rest, d ≤ x.2 := by
      intro x hx
      exact (List.pairwise_cons.mp inv.sorted).1 x hx
    refine ⟨(List.pairwise_cons.mp inv.sorted).2, ?_, ?_⟩
    · apply pairwiseOfMem
      intro a ha b hb
      have := pushes_snd ha
      have := pushes_snd hb
      omega
    · intro a ha b hb
      have h1 : a.2 ≤ d + 1 :=
        inv.twoLevel a.1 a.2 (List.mem_cons_of_mem _ (by simpa using ha)) c d
          (List.mem_cons_self _ _)
      have h2 := pushes_snd hb
      omega
  twoLevel := by
    intro a b hab a' b' hab'
    have hrest : ∀ x y, (x, y) ∈ rest → d ≤ y := by
      intro x y hxy
      exact (List.pairwise_cons.mp inv.sorted).1 (x, y) hxy
    rcases List.mem_append.mp hab with h | h <;> rcases List.mem_append.mp hab' with h' | h'
    · exact inv.twoLevel a b (List.mem_cons_of_mem _ h) a' b' (List.mem_cons_of_mem _ h')
    · have h2 : b' = d + 1 := pushes_snd h'
      have h1 : b ≤ d + 1 :=
        inv.twoLevel a b (List.mem_cons_of_mem _ h) c d (List.mem_cons_self _ _)
      omega
    · have h2 : b = d + 1 := pushes_snd h
      have h1 : d ≤ b' := hrest a' b' h'
      omega
    · have h2 : b = d + 1 := pushes_snd h
      have h3 : b' = d + 1 := pushes_snd h'
      omega
  visitedSmall := by
    intro v hv
    have hrest : ∀ x y, (x, y) ∈ rest → d ≤ y := by
      intro x y hxy
      exact (List.pairwise_cons.mp inv.sorted).1 (x, y) hxy
    rcases List.mem_cons.mp hv with rfl | hvV
    · refine ⟨d, inv.sound v d (List.mem_cons_self _ _), ?_⟩
      intro a b hab
      rcases List.mem_append.mp hab with h | h
      · exact hrest a b h
      · have := pushes_snd h
        omega
    · obtain ⟨dv, pdv, hdv⟩ := inv.visitedSmall v hvV
      have hdvd : dv ≤ d := hdv c d (List.mem_cons_self _ _)
      refine ⟨dv, pdv, ?_⟩
      intro a b hab
      rcases List.mem_append.mp hab with h | h
      · exact hdv a b (List.mem_cons_of_mem _ h)
      · have := pushes_snd h
        omega
  cover := by
    intro m
    induction m using Nat.strong_induction_on with
    | _ m ihm =>
      intro w hpath
      rcases inv.cover m w hpath with h | ⟨a, b, hab, hav, j, hpl, hle⟩
      · exact Or.inl (List.mem_cons_of_mem _ h)
      · rcases List.mem_cons.mp hab with heq | hmem
        · injection heq with h1 h2
          subst h1
          subst h2
          exact bfs_cover_via inv hcv ihm j w hpl hle
        · by_cases hac : a = c
          · subst hac
            have hdb : d ≤ b := (List.pairwise_cons.mp inv.sorted).1 (a, b) hmem
            exact bfs_cover_via inv hcv ihm j w hpl (by omega)
          · refine Or.inr ⟨a, b, List.mem_append_left _ hmem, ?_, j, hpl, hle⟩
            intro hmem'
            rcases List.mem_cons.mp hmem' with h | h
            · exact hac h
            · exact hav h
  enNotVisited := by
    intro h
    rcases List.mem_cons.mp h with h | h
    · exact hce h.symm
    · exact inv.enNotVisited h

/-! ### BFS correctness -/

theorem bfsLoop_fresh_step (g : Graph) (en : Node) (fuel : Nat) (visited : List Node)
    (c : Node) (d : Nat) (rest : List (Node × Nat)) (hce : ¬c = en) (hcv : c ∉ visited) :
    bfsLoop g en (fuel + 1) visited ((c, d) :: rest) =
      bfsLoop g en fuel (c :: visited) (rest ++ pushes g visited c d) := by
  rcases hl : lookupA g.adj c with _ | ns
  · simp only [bfsLoop, if_neg hce, if_neg hcv, hl]
    have hp : pushes g visited c d = [] := by
      simp [pushes, neighborsOf, hl]
    rw [hp, List.append_nil]
  · simp only [bfsLoop, if_neg hce, if_neg hcv, hl]
    have hp : pushes g visited c d =
        (ns.filter (fun v => decide (v ∉ c :: visited))).map (fun v => (v, d + 1)) := by
      simp [pushes, neighborsOf, hl]
    rw [hp]

theorem bfsLoop_correct (g : Graph) (s en : Node) :
    ∀ fuel visited queue, BfsInv g s en visited queue →
      ∀ r, bfsLoop g en fuel visited queue = some r →
        (∀ d, r = some d → PathLen g s en d ∧ ∀ m, PathLen g s en m → d ≤ m) ∧
        (r = none → ∀ m, ¬ PathLen g s en m) := by
  intro fuel
  induction fuel with
  | zero =>
    intro visited queue _ r h
    simp [bfsLoop] at h
  | succ f ih =>
    intro visited queue inv r h
    match queue with
    | [] =>
      have hstep : bfsLoop g en (f + 1) visited [] = some none := rfl
      rw [hstep] at h
      injection h with h
      subst h
      constructor
      · intro d hd
        exact absurd hd (by simp)
      · intro _ m hp
        rcases inv.cover m en hp with hv | ⟨a, b, hab, _, _⟩
        · exact inv.enNotVisited hv
        · simp at hab
    | (c, d) :: rest =>
      by_cases hce : c = en
      · have hstep : bfsLoop g en (f + 1) visited ((c, d) :: rest) = some (some d) := by
          simp [bfsLoop, hce]
        rw [hstep] at h
        injection h with h
        subst h
        constructor
        · intro d' hd'
          injection hd' with hd'
          subst hd'
          refine ⟨hce ▸ inv.sound c d (List.mem_cons_self _ _), ?_⟩
          intro m hp
          rcases inv.cover m en hp with hv | ⟨a, b, hab, hav, j, hpl, hle⟩
          · exact absurd hv inv.enNotVisited
          · have hdb : d ≤ b := by
              rcases List.mem_cons.mp hab with heq | hmem
              · injection heq with h1 h2
                omega
              · exact (List.pairwise_cons.mp inv.sorted).1 (a, b) hmem
            omega
        · intro hn
          exact absurd hn (by simp)
      · by_cases hcv : c ∈ visited
        · simp only [bfsLoop, if_neg hce, if_pos hcv] at h
          exact ih visited rest (bfsInv_pop_visited inv hcv) r h
        · rw [bfsLoop_fresh_step g en f visited c d rest hce hcv] at h
          exact ih _ _ (bfsInv_pop_fresh inv hce hcv) r h

/-- Full functional specification of `degrees_of_separation` for arbitrary
graph values, phrased with directed-arc path lengths. -/
theorem dos_spec (g : Graph) (s e : Node) :
    (∀ d, g.degrees_of_separation s e = some d ↔
      PathLen g s e d ∧ ∀ m, PathLen g s e m → d ≤ m) ∧
    (g.degrees_of_separation s e = none ↔ ∀ m, ¬ PathLen g s e m) := by
  by_cases hse : s = e
  · subst hse
    constructor
    · intro d
      simp only [Graph.degrees_of_separation, if_pos rfl]
      constructor
      · intro hd
        injection hd with hd
        subst hd
        exact ⟨PathLen.refl s, fun m _ => Nat.zero_le m⟩
      · rintro ⟨_, hmin⟩
        have h0 := hmin 0 (PathLen.refl s)
        simp [Nat.le_zero.mp h0]
    · constructor
      · intro h
        simp [Graph.degrees_of_separation] at h
      · intro h
        exact absurd (PathLen.refl s) (h 0)
  · obtain ⟨r, hr⟩ := bfsLoop_terminates g e (bfsFuel g) [] [(s, 0)] (by
      simp only [List.length_singleton, bfsFuel]
      omega)
    have hmain := bfsLoop_correct g s e (bfsFuel g) [] [(s, 0)] (bfsInv_init g s e) r hr
    have hdos : g.degrees_of_separation s e = r := by
      simp [Graph.degrees_of_separation, hse, hr]
    rcases r with _ | d0
    · have hnp := hmain.2 rfl
      constructor
      · intro d
        rw [hdos]
        constructor
        · intro h
          exact absurd h (by simp)
        · rintro ⟨p, _⟩
          exact absurd p (hnp d)
      · rw [hdos]
        simp only [true_iff]
        exact hnp
    · obtain ⟨p0, hmin0⟩ := hmain.1 d0 rfl
      constructor
      · intro d
        rw [hdos]
        constructor
        · intro h
          injection h with h
          subst h
          exact ⟨p0, hmin0⟩
        · rintro ⟨p, hmin⟩
          have h1 : d ≤ d0 := hmin d0 p0
          have h2 : d0 ≤ d := hmin0 d p
          have : d = d0 := by omega
          rw [this]
      · rw [hdos]
        constructor
        · intro h
          exact absurd h (by simp)
        · intro h
          exact absurd p0 (h d0)

/-! ### Equivalence of the two enqueue policies -/

theorem QRel.mono {v v' : List Node} (hv : ∀ x ∈ v, x ∈ v') :
    ∀ {qc qn : List (Node × Nat)}, QRel v qc qn → QRel v' qc qn := by
  intro qc qn h
  induction h with
  | nil => exact .nil
  | keep _ ih => exact .keep ih
  | extra hm _ ih => exact .extra (hv _ hm) ih

theorem QRel.append {v : List Node} :
    ∀ {a b c d : List (Node × Nat)}, QRel v a b → QRel v c d → QRel v (a ++ c) (b ++ d) := by
  intro a b c d h1 h2
  induction h1 with
  | nil => simpa using h2
  | keep _ ih => exact .keep ih
  | extra hm _ ih => exact .extra hm ih

theorem QRel.filter_pushes (v' : List Node) (ns : List Node) (d : Nat) :
    QRel v' ((ns.filter (fun x => decide (x ∉ v'))).map (fun x => (x, d + 1)))
      (ns.map (fun x => (x, d + 1))) := by
  induction ns with
  | nil => exact .nil
  | cons x xs ih =>
    by_cases hx : x ∈ v'
    · have hd : decide (x ∉ v') = false := by simp [hx]
      simp only [List.filter_cons, hd, Bool.false_eq_true, if_false, List.map_cons]
      exact .extra hx ih
    · have hd : decide (x ∉ v') = true := by simp [hx]
      simp only [List.filter_cons, hd, if_true, List.map_cons]
      exact .keep ih

/-- Dequeue-time filtering makes the extra entries irrelevant: whenever both
loops run to completion from related states, their results agree. -/
theorem bfs_sim (g : Graph) (en : Node) :
    ∀ fn fc visited qc qn rn rc, en ∉ visited → QRel visited qc qn →
      bfsLoopNoCheck g en fn visited qn = some rn →
      bfsLoop g en fc visited qc = some rc → rn = rc := by
  intro fn
  induction fn with
  | zero =>
    intro fc v qc qn rn rc _ _ hn _
    simp [bfsLoopNoCheck] at hn
  | succ f ih =>
    intro fc v qc qn rn rc hen hrel hn hc
    cases hrel with
    | nil =>
      have h1 : bfsLoopNoCheck g en (f + 1) v [] = some none := rfl
      rw [h1] at hn
      injection hn with hn
      match fc with
      | 0 => simp [bfsLoop] at hc
      | fc' + 1 =>
        have h2 : bfsLoop g en (fc' + 1) v [] = some none := rfl
        rw [h2] at hc
        injection hc with hc
        rw [← hn, ← hc]
    | @keep p qc' qn' hrel' =>
      obtain ⟨c, d⟩ := p
      match fc with
      | 0 => simp [bfsLoop] at hc
      | fc' + 1 =>
        by_cases hce : c = en
        · have h1 : bfsLoopNoCheck g en (f + 1) v ((c, d) :: qn') = some (some d) := by
            simp [bfsLoopNoCheck, hce]
          have h2 : bfsLoop g en (fc' + 1) v ((c, d) :: qc') = some (some d) := by
            simp [bfsLoop, hce]
          rw [h1] at hn
          rw [h2] at hc
          injection hn with hn
          injection hc with hc
          rw [← hn, ← hc]
        · by_cases hcv : c ∈ v
          · simp only [bfsLoopNoCheck, if_neg hce, if_pos hcv] at hn
            simp only [bfsLoop, if_neg hce, if_pos hcv] at hc
            exact ih fc' v qc' qn' rn rc hen hrel' hn hc
          · have hen' : en ∉ c :: v := by
              intro h
              rcases List.mem_cons.mp h with h | h
              · exact hce h.symm
              · exact hen h
            have hsub : ∀ x ∈ v, x ∈ c :: v := fun x hx => List.mem_cons_of_mem _ hx
            rcases hl : lookupA g.adj c with _ | ns
            · simp only [bfsLoopNoCheck, if_neg hce, if_neg hcv, hl] at hn
              simp only [bfsLoop, if_neg hce, if_neg hcv, hl] at hc
              exact ih fc' (c :: v) qc' qn' rn rc hen' (hrel'.mono hsub) hn hc
            · simp only [bfsLoopNoCheck, if_neg hce, if_neg hcv, hl] at hn
              simp only [bfsLoop, if_neg hce, if_neg hcv, hl] at hc
              have hrel2 : QRel (c :: v)
                  (qc' ++ (ns.filter (fun x => decide (x ∉ c :: v))).map (fun x => (x, d + 1)))
                  (qn' ++ ns.map (fun x => (x, d + 1))) :=
                QRel.append (hrel'.mono hsub) (QRel.filter_pushes (c :: v) ns d)
              exact ih fc' (c :: v) _ _ rn rc hen' hrel2 hn hc
    | @extra p _ qn' hp hrel' =>
      obtain ⟨c, d⟩ := p
      have hpv : c ∈ v := hp
      have hce : ¬c = en := by
        intro h
        exact hen (h ▸ hpv)
      simp only [bfsLoopNoCheck, if_neg hce, if_pos hpv] at hn
      exact ih fc v qc qn' rn rc hen hrel' hn hc

/-- C9 equivalence at the API level. -/
theorem dosNoCheck_eq_dos (g : Graph) (s e : Node) :
    degrees_of_separation_noCheck g s e = g.degrees_of_separation s e := by
  unfold degrees_of_separation_noCheck Graph.degrees_of_separation
  by_cases hse : s = e
  · simp [hse]
  · have hfuel : ([((s : Node), (0 : Nat))]).length + potential g.adj [] < bfsFuel g := by
      simp only [List.length_singleton, bfsFuel]
      omega
    obtain ⟨rn, hn⟩ := bfsLoopNoCheck_terminates g e (bfsFuel g) [] [(s, 0)] hfuel
    obtain ⟨rc, hc⟩ := bfsLoop_terminates g e (bfsFuel g) [] [(s, 0)] hfuel
    have heq : rn = rc :=
      bfs_sim g e (bfsFuel g) (bfsFuel g) [] [(s, 0)] [(s, 0)] rn rc
        (List.not_mem_nil e) (QRel.keep QRel.nil) hn hc
    simp [hse, hn, hc, heq]

/-! ### The CSV import boundary -/

theorem addRows_error {pre : List (Option String)} (hpre : ∀ r ∈ pre, r.isSome) :
    ∀ (g : Graph) (post : List (Option String)),
      addRows g (pre ++ none :: post) = .error .formatError := by
  induction pre with
  | nil =>
    intro g post
    rfl
  | cons r rest ih =>
    intro g post
    rcases r with _ | name
    · have := hpre none (List.mem_cons_self _ _)
      simp at this
    · exact ih (fun x hx => hpre x (List.mem_cons_of_mem _ hx)) (g.add_node name) post

/-- In the empty graph there is no undirected path between distinct nodes. -/
theorem not_uPathLen_new {s e : Node} (hse : s ≠ e) :
    ∀ d, ¬ UPathLen Graph.new s e d := by
  intro d p
  cases p with
  | refl => exact hse rfl
  | step h q =>
    rcases h with h | h <;> simp [neighborsOf, Graph.new, lookupA] at h

/-- With both endpoints distinct and one of them not a node, a built graph
has no undirected path between them. -/
theorem no_upath_unknown_endpoint (ops : List Op) {s e : Node} (hse : s ≠ e)
    (h : s ∉ (buildGraph ops).nodes ∨ e ∉ (buildGraph ops).nodes) :
    ∀ d, ¬ UPathLen (buildGraph ops) s e d := by
  intro d p
  cases d with
  | zero => exact hse p.eq_of_ulen_zero
  | succ k =>
    rcases h with h | h
    · exact h (uPathLen_first_mem (closed_buildGraph ops) p)
    · exact h (uPathLen_last_mem (closed_buildGraph ops) k s e p)

/-! ### The claims -/

/-- C1: for every graph built by any sequence of `add_node`/`add_edge` calls
and every pair of identifiers `s`, `e`, `degrees_of_separation s e` returns
`some d` exactly when `d` is the minimum number of edges on any path from
`s` to `e` in the undirected graph, and returns `none` exactly when no such
path exists. -/
theorem C1_degrees_of_separation_shortest_path (ops : List Op) (s e : Node) :
    (∀ d, (buildGraph ops).degrees_of_separation s e = some d ↔
      (UPathLen (buildGraph ops) s e d ∧
        ∀ m, UPathLen (buildGraph ops) s e m → d ≤ m)) ∧
    ((buildGraph ops).degrees_of_separation s e = none ↔
      ∀ m, ¬ UPathLen (buildGraph ops) s e m) := by
  have hs := symm_buildGraph ops
  have h := dos_spec (buildGraph ops) s e
  constructor
  · intro d
    rw [h.1 d]
    constructor
    · rintro ⟨p, hmin⟩
      exact ⟨p.toUPathLen, fun m hm => hmin m (hm.toPathLen hs)⟩
    · rintro ⟨p, hmin⟩
      exact ⟨p.toPathLen hs, fun m hm => hmin m hm.toUPathLen⟩
  · rw [h.2]
    constructor
    · intro hnp m hm
      exact hnp m (hm.toPathLen hs)
    · intro hnp m hm
      exact hnp m hm.toUPathLen

/-- Witness for C1 at the spec's `A—B—C` example: the computed value 2 is
certified to be the undirected shortest-path distance. -/
theorem C1_degrees_of_separation_shortest_path_witness :
    UPathLen (buildGraph [Op.addEdge "a" "b", Op.addEdge "b" "c"]) "a" "c" 2 ∧
    ∀ m, UPathLen (buildGraph [Op.addEdge "a" "b", Op.addEdge "b" "c"]) "a" "c" m → 2 ≤ m :=
  ((C1_degrees_of_separation_shortest_path [Op.addEdge "a" "b", Op.addEdge "b" "c"]
    "a" "c").1 2).mp (by decide)

/-- C2: symmetry is an invariant of every reachable graph: for every graph
built from `new` by `add_node`/`add_edge` calls, `v` is a neighbor of `u`
iff `u` is a neighbor of `v`. -/
theorem C2_symmetry_invariant (ops : List Op) (u v : Node) :
    v ∈ neighborsOf (buildGraph ops) u ↔ u ∈ neighborsOf (buildGraph ops) v :=
  symm_buildGraph ops u v

/-- C3: closure is an invariant of every reachable graph: every identifier
in some neighbor set is a key of the adjacency mapping; and `add_edge u v`
makes both `u` and `v` nodes even if never explicitly added. -/
theorem C3_closure_invariant (ops : List Op) :
    (∀ u x, x ∈ neighborsOf (buildGraph ops) u → x ∈ (buildGraph ops).nodes) ∧
    (∀ (g : Graph) (u v : Node),
      u ∈ (g.add_edge u v).nodes ∧ v ∈ (g.add_edge u v).nodes) := by
  refine ⟨closed_buildGraph ops, ?_⟩
  intro g u v
  rw [mem_nodes_add_edge, mem_nodes_add_edge]
  exact ⟨Or.inr (Or.inl rfl), Or.inl rfl⟩

/-- Witness for C3 at a concrete edge insertion. -/
theorem C3_closure_invariant_witness :
    "b" ∈ (buildGraph [Op.addEdge "a" "b"]).nodes ∧
    ("a" ∈ (Graph.new.add_edge "a" "b").nodes ∧ "b" ∈ (Graph.new.add_edge "a" "b").nodes) :=
  ⟨(C3_closure_invariant [Op.addEdge "a" "b"]).1 "a" "b" (by decide),
   (C3_closure_invariant []).2 Graph.new "a" "b"⟩

/-- C4: `degrees_of_separation` is total: for every graph value and every
pair of identifiers the BFS loop exits by itself within the stated fuel
bound (and any larger fuel), producing the value the API returns. -/
theorem C4_bfs_terminates (g : Graph) (s e : Node) (fuel : Nat)
    (hf : bfsFuel g ≤ fuel) :
    ∃ r : Option Nat, bfsLoop g e fuel [] [(s, 0)] = some r ∧
      (s ≠ e → g.degrees_of_separation s e = r) := by
  have hfuel : ([((s : Node), (0 : Nat))]).length + potential g.adj [] < bfsFuel g := by
    simp only [List.length_singleton, bfsFuel]
    omega
  obtain ⟨r, hr⟩ := bfsLoop_terminates g e (bfsFuel g) [] [(s, 0)] hfuel
  refine ⟨r, bfsLoop_mono g e (bfsFuel g) fuel [] [(s, 0)] r hf hr, ?_⟩
  intro hse
  simp [Graph.degrees_of_separation, hse, hr]

/-- Witness for C4 on the empty graph. -/
theorem C4_bfs_terminates_witness :
    ∃ r : Option Nat, bfsLoop Graph.new "b" (bfsFuel Graph.new) [] [("a", 0)] = some r ∧
      ("a" ≠ "b" → (Graph.new).degrees_of_separation "a" "b" = r) :=
  C4_bfs_terminates Graph.new "a" "b" (bfsFuel Graph.new) (Nat.le_refl _)

/-- C5: mutation is idempotent: `add_node u` on an existing node leaves the
graph unchanged, and `add_edge u v` on an existing edge leaves the whole
adjacency state unchanged. -/
theorem C5_mutation_idempotent :
    (∀ (g : Graph) (u : Node), u ∈ g.nodes → g.add_node u = g) ∧
    (∀ (g : Graph) (u v : Node), v ∈ neighborsOf g u → u ∈ neighborsOf g v →
      g.add_edge u v = g) :=
  ⟨fun _ _ h => add_node_mem_eq_self h, fun _ _ _ h1 h2 => add_edge_eq_self h1 h2⟩

/-- Witness for C5 on a concrete one-edge graph. -/
theorem C5_mutation_idempotent_witness :
    (buildGraph [Op.addEdge "a" "b"]).add_node "a" = buildGraph [Op.addEdge "a" "b"] ∧
    (buildGraph [Op.addEdge "a" "b"]).add_edge "a" "b" = buildGraph [Op.addEdge "a" "b"] :=
  ⟨C5_mutation_idempotent.1 (buildGraph [Op.addEdge "a" "b"]) "a" (by decide),
   C5_mutation_idempotent.2 (buildGraph [Op.addEdge "a" "b"]) "a" "b" (by decide) (by decide)⟩

/-- C6: `degrees_of_separation x x = some 0` for every graph value and every
identifier `x`, decided by value equality, even when `x` was never added. -/
theorem C6_self_distance_zero (g : Graph) (x : Node) :
    g.degrees_of_separation x x = some 0 := by
  simp [Graph.degrees_of_separation]

/-- C7: absence is a value: `adj?` returns `none` exactly on non-nodes, and
`degrees_of_separation` returns `none` (not a failure) when no path exists
or when either endpoint is unknown. -/
theorem C7_absence_is_a_value :
    (∀ (g : Graph) (u : Node), g.adj? u = none ↔ u ∉ g.nodes) ∧
    (∀ (ops : List Op) (s e : Node), s ≠ e →
      (∀ d, ¬ UPathLen (buildGraph ops) s e d) →
      (buildGraph ops).degrees_of_separation s e = none) ∧
    (∀ (ops : List Op) (s e : Node), s ≠ e →
      (s ∉ (buildGraph ops).nodes ∨ e ∉ (buildGraph ops).nodes) →
      (buildGraph ops).degrees_of_separation s e = none) := by
  refine ⟨adj?_eq_none_iff, ?_, ?_⟩
  · intro ops s e _ hnp
    exact (dos_spec (buildGraph ops) s e).2.mpr fun m p => hnp m p.toUPathLen
  · intro ops s e hse h
    exact (dos_spec (buildGraph ops) s e).2.mpr
      fun m p => no_upath_unknown_endpoint ops hse h m p.toUPathLen

/-- Witness for C7: the empty graph and a graph with an isolated unknown
endpoint. -/
theorem C7_absence_is_a_value_witness :
    ((Graph.new).adj? "a" = none ↔ "a" ∉ (Graph.new).nodes) ∧
    (buildGraph []).degrees_of_separation "a" "b" = none ∧
    (buildGraph [Op.addNode "a"]).degrees_of_separation "a" "b" = none :=
  ⟨C7_absence_is_a_value.1 Graph.new "a",
   C7_absence_is_a_value.2.1 [] "a" "b" (by decide)
     (not_uPathLen_new (by decide)),
   C7_absence_is_a_value.2.2 [Op.addNode "a"] "a" "b" (by decide) (Or.inr (by decide))⟩

/-- C8: the CSV import fails with an I/O-kind error when the source cannot
be opened and with a format-kind error when a data row is missing its first
column; both are returned to the caller, not skipped. -/
theorem C8_csv_errors_propagate :
    (∀ g : Graph, g.add_from_csv none = .error .ioError) ∧
    (∀ (g : Graph) (pre post : List (Option String)), (∀ r ∈ pre, r.isSome) →
      g.add_from_csv (some (pre ++ none :: post)) = .error .formatError) :=
  ⟨fun _ => rfl, fun g _ post hpre => addRows_error hpre g post⟩

/-- Witness for C8 with a concrete malformed second row. -/
theorem C8_csv_errors_propagate_witness :
    (Graph.new).add_from_csv none = .error .ioError ∧
    (Graph.new).add_from_csv (some [some "x", none]) = .error .formatError :=
  ⟨C8_csv_errors_propagate.1 Graph.new,
   C8_csv_errors_propagate.2 Graph.new [some "x"] [] (by decide)⟩

/-- C9: the BFS that enqueues without a visited check (dequeue-time check
only, the §9 variant) returns exactly the same result as the BFS of the
source, which also filters at enqueue time. -/
theorem C9_enqueue_check_irrelevant (g : Graph) (s e : Node) :
    degrees_of_separation_noCheck g s e = g.degrees_of_separation s e :=
  dosNoCheck_eq_dos g s e

/-- C10: frame property: `add_edge u v` leaves every other node's adjacency
entry unchanged, `add_node` leaves every existing node's entry unchanged,
and no mutation ever removes a node or an edge: node membership and
neighbor membership only grow under every operation. -/
theorem C10_mutation_frame :
    (∀ (g : Graph) (u v w : Node), w ≠ u → w ≠ v →
      (g.add_edge u v).adj? w = g.adj? w) ∧
    (∀ (g : Graph) (u w : Node), w ∈ g.nodes →
      (g.add_node u).adj? w = g.adj? w) ∧
    (∀ (g : Graph) (op : Op) (w : Node), w ∈ g.nodes → w ∈ (applyOp g op).nodes) ∧
    (∀ (g : Graph) (op : Op) (w x : Node), x ∈ neighborsOf g w →
      x ∈ neighborsOf (applyOp g op) w) :=
  ⟨fun _ _ _ _ h1 h2 => adj?_add_edge_ne h1 h2,
   fun _ _ _ h => adj?_add_node_mem h,
   fun _ op _ h => mem_nodes_applyOp h op,
   fun _ op _ _ h => mem_neighborsOf_applyOp h op⟩

/-- Witness for C10 on a concrete graph: the untouched entry is unchanged
under both mutations, the node survives, and the edge `a—b` survives a
further `add_edge`. -/
theorem C10_mutation_frame_witness :
    ((buildGraph [Op.addEdge "a" "b"]).add_edge "b" "c").adj? "a"
      = (buildGraph [Op.addEdge "a" "b"]).adj? "a" ∧
    ((buildGraph [Op.addEdge "a" "b"]).add_node "c").adj? "a"
      = (buildGraph [Op.addEdge "a" "b"]).adj? "a" ∧
    "a" ∈ (applyOp (buildGraph [Op.addEdge "a" "b"]) (Op.addNode "c")).nodes ∧
    "b" ∈ neighborsOf (applyOp (buildGraph [Op.addEdge "a" "b"]) (Op.addEdge "a" "c")) "a" :=
  ⟨C10_mutation_frame.1 (buildGraph [Op.addEdge "a" "b"]) "b" "c" "a" (by decide) (by decide),
   C10_mutation_frame.2.1 (buildGraph [Op.addEdge "a" "b"]) "c" "a" (by decide),
   C10_mutation_frame.2.2.1 (buildGraph [Op.addEdge "a" "b"]) (Op.addNode "c") "a" (by decide),
   C10_mutation_frame.2.2.2 (buildGraph [Op.addEdge "a" "b"]) (Op.addEdge "a" "c") "a" "b"
     (by decide)⟩

section SmokeTests

example : (buildGraph [.addEdge "a" "b", .addEdge "b" "c"]).degrees_of_separation "a" "c"
    = some 2 := by decide

example : (buildGraph [.addEdge "a" "b", .addEdge "b" "c"]).degrees_of_separation "a" "b"
    = some 1 := by decide

example : (buildGraph [.addNode "a", .addNode "b"]).degrees_of_separation "a" "b"
    = none := by decide

example : (Graph.new).degrees_of_separation "x" "x" = some 0 := by decide

example : degrees_of_separation_noCheck (buildGraph [.addEdge "a" "b", .addEdge "b" "c"]) "a" "c"
    = some 2 := by decide

end SmokeTests
